import Mathlib

/-!
# Shamir secret reconstruction (`shamir-secret/main.cpp`)

A shallow embedding of the string based `BigInt` class, the base decoder, the
division-free Lagrange sum, the combination enumerator and the voting core of
`solve`, followed by theorems about them.

Modelling conventions.

* `std::string` is `List Char`; a `char` is read as a signed 8-bit value
  (`charVal`) and an `int` is narrowed to `char` modulo 256 (`toChar`).
* `int` is `Int`.  The accumulators of `multiply` and the negated abscissas of
  `lagrangeAtZero`, the places where a 32-bit `int` can overflow, are reduced
  with `wrap32`; string lengths and tally counts are taken to fit in an `int`.
* `/` and `%` on `int` truncate towards zero (`Int.tdiv`, `Int.tmod`).
* A loop that walks a string from its last character to its first consumes the
  reversed string.
* `solve` is modelled from the decoded points on: reading and parsing the
  input file and printing are outside the model; the result of `solve` is the
  printed secret and the list of share identifiers printed as possibly faulty.
-/

namespace Shamir

/-! ## Characters and machine integers -/

/-- Value of a `char` promoted to `int` (signed 8-bit `char`). -/
def charVal (c : Char) : Int := ((c.toNat : Int) + 128) % 256 - 128

/-- Narrowing conversion `int → char`: the byte congruent to `v` modulo 256. -/
def toChar (v : Int) : Char := Char.ofNat (v % 256).toNat

/-- Two's complement reduction of an integer to the range of a 32-bit `int`. -/
def wrap32 (v : Int) : Int := (v + 2147483648) % 4294967296 - 2147483648

/-- The expression `c - '0'`. -/
def digitVal (c : Char) : Int := charVal c - 48

/-- Canonical decimal rendering of a natural number: no leading zeros, `"0"` for zero. -/
def dec (n : Nat) : List Char := Nat.toDigits 10 n

/-- `std::to_string` on an `int`. -/
def to_string (v : Int) : List Char :=
  if v < 0 then '-' :: dec v.natAbs else dec v.toNat

/-! ## BigInt -/

/-- The class `BigInt`: a single `string` field. -/
structure BigInt where
  value : List Char
deriving DecidableEq, Repr

namespace BigInt

/-- `BigInt::trim`: skip leading `'0'` characters while more than one character is left
(`while (i < s.size() - 1 && s[i] == '0') i++; return s.substr(i);`). -/
def trim : List Char → List Char
  | c :: d :: s => if c = '0' then trim (d :: s) else c :: d :: s
  | s => s

/-- The operand digit read by one iteration of `add`, `i >= 0 ? a[i--] - '0' : 0`, where
the argument holds `a[0..i]` in reverse. -/
def headDigit : List Char → Int
  | c :: _ => digitVal c
  | [] => 0

/-- The `while` loop of `BigInt::add`.  `ra` and `rb` hold the characters `a[0..i]` and
`b[0..j]` in reverse, so their heads are `a[i]` and `b[j]`; `fuel` bounds the number of
iterations. -/
def addLoop : Nat → List Char → List Char → Int → List Char → List Char
  | 0, _, _, _, res => res
  | fuel + 1, ra, rb, carry, res =>
    if ra ≠ [] ∨ rb ≠ [] ∨ carry ≠ 0 then
      let sum := headDigit ra + headDigit rb + carry
      addLoop fuel ra.tail rb.tail (sum.tdiv 10) (toChar (sum.tmod 10 + 48) :: res)
    else res

/-- `BigInt::add`.  The loop runs once per character of the longer operand and then at
most twice more for the carry, so `a.length + b.length + 2` iterations always suffice
(`addLoop_fuel_enough`). -/
def add (a b : List Char) : List Char :=
  trim (addLoop (a.length + b.length + 2) a.reverse b.reverse 0 [])

/-- The statement `prod[idx] += v` on a vector of `int`. -/
def addAt (prod : List Int) (idx : Nat) (v : Int) : List Int :=
  prod.set idx (wrap32 (prod.getD idx 0 + v))

/-- Inner loop of the product accumulation: `for (j = n - 1; j >= 0; j--)`, entered with
`cnt = j + 1`. -/
def mulInner (a b : List Char) (i : Nat) : Nat → List Int → List Int
  | 0, prod => prod
  | j + 1, prod =>
    mulInner a b i j (addAt prod (i + j + 1) (digitVal (a.getD i '0') * digitVal (b.getD j '0')))

/-- Outer loop of the product accumulation: `for (i = m - 1; i >= 0; i--)`, entered with
`cnt = i + 1`. -/
def mulOuter (a b : List Char) : Nat → List Int → List Int
  | 0, prod => prod
  | i + 1, prod => mulOuter a b i (mulInner a b i b.length prod)

/-- Carry propagation: `for (i = m + n - 1; i > 0; i--)`. -/
def carryLoop : Nat → List Int → List Int
  | 0, prod => prod
  | i + 1, prod =>
    let prod1 := addAt prod i ((prod.getD (i + 1) 0).tdiv 10)
    carryLoop i (prod1.set (i + 1) ((prod1.getD (i + 1) 0).tmod 10))

/-- `BigInt::multiply`. -/
def multiply (a b : List Char) : List Char :=
  let m := a.length
  let n := b.length
  let prod := carryLoop (m + n - 1) (mulOuter a b m (List.replicate (m + n) 0))
  let res := (prod.dropWhile (fun d => d == 0)).map (fun d => toChar (d + 48))
  if res = [] then ['0'] else res

/-- Constructor `BigInt(string v)` (also used for `const char*`). -/
def ofString (v : List Char) : BigInt := ⟨trim v⟩

/-- Constructor `BigInt(long long v)`. -/
def ofLongLong (v : Int) : BigInt := ⟨to_string v⟩

/-- The `operator+` of the class. -/
def plus (a b : BigInt) : BigInt := ofString (add a.value b.value)

/-- The `operator*` of the class. -/
def times (a b : BigInt) : BigInt := ofString (multiply a.value b.value)

/-- The `operator==` of the class: equality of the value strings. -/
def eq (a b : BigInt) : Bool := a.value == b.value

end BigInt

/-! ## Base decoding -/

/-- `isdigit` in the C locale. -/
def isdigit (c : Char) : Bool := 48 ≤ charVal c && charVal c ≤ 57

/-- `tolower` in the C locale, as an `int`. The argument is the `char` converted to `int`;
for a negative one the table of glibc holds the byte value `c + 256`, except for `-1`
(`EOF`), which is returned unchanged. -/
def tolower (c : Char) : Int :=
  if 65 ≤ charVal c ∧ charVal c ≤ 90 then charVal c + 32
  else if charVal c < -1 then charVal c + 256
  else charVal c

/-- The digit value computed in the body of `decodeValue`. -/
def digitOf (c : Char) : Int :=
  if isdigit c then charVal c - 48 else tolower c - 97 + 10

/-- Loop of `decodeValue`, over the reversed digit string, carrying `(res, powB)`. -/
def decodeLoop (base : Int) : List Char → BigInt × BigInt → BigInt × BigInt
  | [], s => s
  | c :: rest, (res, powB) =>
    let term := powB.times (BigInt.ofString (to_string (digitOf c)))
    decodeLoop base rest (res.plus term, powB.times (BigInt.ofString (to_string base)))

/-- `decodeValue(val, base)`. -/
def decodeValue (val : List Char) (base : Int) : BigInt :=
  (decodeLoop base val.reverse (BigInt.ofString ['0'], BigInt.ofString ['1'])).1

/-! ## Lagrange sum at zero -/

/-- A point `pair<int, BigInt>`. -/
abbrev Point := Int × BigInt

/-- Inner loop of `lagrangeAtZero` for the row `i`: `j` is the index of the head of the
remaining points, the state is `(num, den)`. -/
def lagrangeInner (i : Nat) (xi : Int) : Nat → List Point → BigInt × BigInt → BigInt × BigInt
  | _, [], s => s
  | j, p :: ps, (num, den) =>
    if i = j then lagrangeInner i xi (j + 1) ps (num, den)
    else
      lagrangeInner i xi (j + 1) ps
        (num.times (BigInt.ofString (to_string (wrap32 (-p.1)))),
         den.times (BigInt.ofString (to_string (wrap32 (xi - p.1)))))

/-- Outer loop of `lagrangeAtZero`: `i` is the index of the head of the remaining points. -/
def lagrangeOuter (points : List Point) : Nat → List Point → BigInt → BigInt
  | _, [], result => result
  | i, p :: ps, result =>
    let nd := lagrangeInner i p.1 0 points (BigInt.ofString ['1'], BigInt.ofString ['1'])
    lagrangeOuter points (i + 1) ps (result.plus (p.2.times nd.1))

/-- `lagrangeAtZero(points)`. -/
def lagrangeAtZero (points : List Point) : BigInt :=
  lagrangeOuter points 0 points (BigInt.ofString ['0'])

/-! ## Combination enumeration -/

mutual
/-- `generateCombinations(allPoints, k, start, current, result)`; the value is the final
content of `result`. -/
def generateCombinations {α : Type} (allPoints : List α) (k : Int) (start : Nat)
    (current : List α) (result : List (List α)) : List (List α) :=
  if (current.length : Int) = k then result ++ [current]
  else generateLoop allPoints k start current result
termination_by (allPoints.length - start, 1)
decreasing_by exact Prod.Lex.right _ (by decide)
/-- The `for (i = start; i < allPoints.size(); i++)` loop of `generateCombinations`,
entered at index `i`. -/
def generateLoop {α : Type} (allPoints : List α) (k : Int) (i : Nat)
    (current : List α) (result : List (List α)) : List (List α) :=
  if h : i < allPoints.length then
    generateLoop allPoints k (i + 1) current
      (generateCombinations allPoints k (i + 1) (current ++ [allPoints.get ⟨i, h⟩]) result)
  else result
termination_by (allPoints.length - i, 0)
decreasing_by all_goals (apply Prod.Lex.left; omega)
end

/-! ## The voting core of `solve` -/

/-- State of the tally loop: the map `freq`, `bestSecret` and `maxFreq`. -/
structure Tally where
  freq : List Char → Int
  bestSecret : BigInt
  maxFreq : Int

/-- One iteration of the tally loop, for the candidate `secret`. -/
def tallyStep (t : Tally) (secret : BigInt) : Tally :=
  let freq := Function.update t.freq secret.value (t.freq secret.value + 1)
  if freq secret.value > t.maxFreq then ⟨freq, secret, freq secret.value⟩
  else ⟨freq, t.bestSecret, t.maxFreq⟩

/-- The tally loop over the candidates of the enumerated combinations, in order. -/
def tallyLoop (combinations : List (List Point)) (t : Tally) : Tally :=
  combinations.foldl (fun t c => tallyStep t (lagrangeAtZero c)) t

/-- The state before the tally loop: empty map, `BigInt()` and `0`. -/
def tallyInit : Tally := ⟨fun _ => 0, ⟨['0']⟩, 0⟩

/-- The loop that builds `trial` for the share with identifier `x`: push every point whose
`first` differs from `x`, leave as soon as `trial.size() == k`. -/
def trialLoop (x : Int) (k : Int) : List Point → List Point → List Point
  | [], trial => trial
  | p :: ps, trial =>
    let trial1 := if p.1 ≠ x then trial ++ [p] else trial
    if (trial1.length : Int) = k then trial1 else trialLoop x k ps trial1

/-- The suspect loop: the identifiers printed as possibly faulty, in order. -/
def suspectLoop (allPoints : List Point) (k : Int) (bestSecret : BigInt) :
    List Point → List Int
  | [] => []
  | p :: ps =>
    let trySecret := lagrangeAtZero (trialLoop p.1 k allPoints [])
    if !(trySecret.eq bestSecret) then p.1 :: suspectLoop allPoints k bestSecret ps
    else suspectLoop allPoints k bestSecret ps

/-- The part of `solve` after the points are decoded: the printed secret and the list of
share identifiers reported as possibly faulty. -/
def solve (allPoints : List Point) (k : Int) : BigInt × List Int :=
  let combinations := generateCombinations allPoints k 0 [] []
  let bestSecret := (tallyLoop combinations tallyInit).bestSecret
  (bestSecret, suspectLoop allPoints k bestSecret allPoints)

/-! ## Reference definitions taken from the specification -/

/-- The sum `S = Σᵢ yᵢ · Πⱼ≠ᵢ (−xⱼ)` of the specification, over the integers. -/
def lagrangeSum (pts : List (Int × Int)) : Int :=
  ((List.range pts.length).map (fun i =>
    (pts.getD i (0, 0)).2 *
      (((List.range pts.length).filter (fun j => j ≠ i)).map
        (fun j => -(pts.getD j (0, 0)).1)).prod)).sum

/-- All `k`-element sublists of a list, those that contain the head first: the
subsets in lexicographic order of their index tuples. -/
def combs {α : Type} : Nat → List α → List (List α)
  | 0, _ => [[]]
  | _ + 1, [] => []
  | k + 1, a :: l => (combs k l).map (fun t => a :: t) ++ combs (k + 1) l

/-! ## Positional values and digit strings -/

/-- Positional value of a list of digits, most significant first. -/
def nval (ds : List Int) : Int := ds.foldl (fun acc d => acc * 10 + d) 0

/-- Scenario 1: the points `(1, 4)`, `(2, 7)`, `(3, 10)`. -/
def scenario1 : List Point :=
  [(1, BigInt.ofString "4".toList), (2, BigInt.ofString "7".toList),
   (3, BigInt.ofString "10".toList)]

/-- Scenario 2: the points of scenario 1 and the faulty share `(4, 99)`. -/
def scenario2 : List Point :=
  [(1, BigInt.ofString "4".toList), (2, BigInt.ofString "7".toList),
   (3, BigInt.ofString "10".toList), (4, BigInt.ofString "99".toList)]

/-- Four shares whose values tie two against two: `5`, `7`, `7`, `5`. -/
def tiePoints : List Point :=
  [(1, BigInt.ofString "5".toList), (2, BigInt.ofString "7".toList),
   (3, BigInt.ofString "7".toList), (4, BigInt.ofString "5".toList)]

/-- Four shares with the values `5`, `7`, `5`, `5`. -/
def oddSecondPoints : List Point :=
  [(1, BigInt.ofString "5".toList), (2, BigInt.ofString "7".toList),
   (3, BigInt.ofString "5".toList), (4, BigInt.ofString "5".toList)]

/-- Four shares with the values `7`, `5`, `5`, `5`. -/
def oddFirstPoints : List Point :=
  [(1, BigInt.ofString "7".toList), (2, BigInt.ofString "5".toList),
   (3, BigInt.ofString "5".toList), (4, BigInt.ofString "5".toList)]

/-! # Theorems -/

/-! ## The combination enumerator -/

theorem combs_nil_of_pos {α : Type} (k : Nat) (hk : 0 < k) : combs k ([] : List α) = [] := by
  cases k with
  | zero => omega
  | succ k => rfl

/-- Joint description of `generateCombinations` and of its loop, by induction on the
number of points that are still to be visited. -/
theorem generate_aux {α : Type} (allPoints : List α) (k : Int) (n : Nat) :
    ∀ (start : Nat) (current : List α) (result : List (List α)),
      allPoints.length - start ≤ n →
      (generateCombinations allPoints k start current result =
        result ++ (if (current.length : Int) ≤ k then
          (combs (k.toNat - current.length) (allPoints.drop start)).map (fun t => current ++ t)
          else [])) ∧
      ((current.length : Int) ≠ k →
        generateLoop allPoints k start current result =
        result ++ (if (current.length : Int) ≤ k then
          (combs (k.toNat - current.length) (allPoints.drop start)).map (fun t => current ++ t)
          else [])) := by
  induction n with
  | zero =>
    intro start current result hn
    have hdrop : allPoints.drop start = [] := List.drop_eq_nil_of_le (by omega)
    have hloop : (current.length : Int) ≠ k →
        generateLoop allPoints k start current result =
        result ++ (if (current.length : Int) ≤ k then
          (combs (k.toNat - current.length) (allPoints.drop start)).map (fun t => current ++ t)
          else []) := by
      intro hne
      rw [generateLoop, dif_neg (by omega), hdrop]
      split_ifs with h
      · rw [combs_nil_of_pos _ (by omega)]; simp
      · simp
    refine ⟨?_, hloop⟩
    rw [generateCombinations]
    split_ifs with h1 h2 h2
    · have : k.toNat - current.length = 0 := by omega
      simp [this, combs]
    · omega
    · rw [hloop h1, if_pos h2]
    · rw [hloop h1, if_neg h2]
  | succ n ih =>
    intro start current result hn
    have hloop : (current.length : Int) ≠ k →
        generateLoop allPoints k start current result =
        result ++ (if (current.length : Int) ≤ k then
          (combs (k.toNat - current.length) (allPoints.drop start)).map (fun t => current ++ t)
          else []) := by
      intro hne
      rw [generateLoop]
      split_ifs with hlt hle hle
      · have hcur : ((current ++ [allPoints.get ⟨start, hlt⟩]).length : Int) ≤ k := by
          simp; omega
        have hne2 : ((current.length : Int)) ≠ k := hne
        rw [(ih (start + 1) (current ++ [allPoints.get ⟨start, hlt⟩]) result (by omega)).1,
          if_pos hcur,
          (ih (start + 1) current _ (by omega)).2 hne, if_pos hle]
        rw [List.drop_eq_getElem_cons hlt]
        obtain ⟨j, hj⟩ : ∃ j, k.toNat - current.length = j + 1 := ⟨k.toNat - current.length - 1, by omega⟩
        have hj2 : k.toNat - (current ++ [allPoints.get ⟨start, hlt⟩]).length = j := by
          simp; omega
        rw [hj, hj2, combs]
        simp [List.map_append, List.append_assoc]
      · have hcur : ¬ ((current ++ [allPoints.get ⟨start, hlt⟩]).length : Int) ≤ k := by
          simp; omega
        rw [(ih (start + 1) (current ++ [allPoints.get ⟨start, hlt⟩]) result (by omega)).1,
          if_neg hcur,
          (ih (start + 1) current _ (by omega)).2 hne, if_neg hle]
        simp
      · have hdrop : allPoints.drop start = [] := List.drop_eq_nil_of_le (by omega)
        rw [hdrop, combs_nil_of_pos _ (by omega)]; simp
      · simp
    refine ⟨?_, hloop⟩
    rw [generateCombinations]
    split_ifs with h1 h2 h2
    · have : k.toNat - current.length = 0 := by omega
      simp [this, combs]
    · omega
    · rw [hloop h1, if_pos h2]
    · rw [hloop h1, if_neg h2]

theorem generateCombinations_eq {α : Type} (allPoints : List α) (k : Int) :
    generateCombinations allPoints k 0 [] [] = if 0 ≤ k then combs k.toNat allPoints else [] := by
  rw [(generate_aux allPoints k allPoints.length 0 [] [] (by omega)).1]
  simp

theorem combs_map {α β : Type} (f : α → β) (k : Nat) (l : List α) :
    combs k (l.map f) = (combs k l).map (List.map f) := by
  induction l generalizing k with
  | nil => cases k <;> simp [combs]
  | cons a l ih =>
    cases k with
    | zero => simp [combs]
    | succ k => simp [combs, ih, List.map_append, Function.comp_def]

theorem length_combs {α : Type} (k : Nat) (l : List α) :
    (combs k l).length = Nat.choose l.length k := by
  induction l generalizing k with
  | nil => cases k <;> simp [combs]
  | cons a l ih =>
    cases k with
    | zero => simp [combs]
    | succ k => simp [combs, ih, Nat.choose_succ_succ]

theorem mem_combs {α : Type} (k : Nat) (l t : List α) :
    t ∈ combs k l ↔ t.Sublist l ∧ t.length = k := by
  induction l generalizing k t with
  | nil =>
    cases k with
    | zero => simp [combs]
    | succ k =>
      simp only [combs, List.not_mem_nil, List.sublist_nil, false_iff, not_and]
      rintro rfl; simp
  | cons a l ih =>
    cases k with
    | zero =>
      simp only [combs, List.mem_singleton, List.length_eq_zero]
      constructor
      · rintro rfl; simp
      · exact fun h => h.2
    | succ k =>
      simp only [combs, List.mem_append, List.mem_map, ih]
      constructor
      · rintro (⟨s, ⟨hs, hl⟩, rfl⟩ | ⟨hs, hl⟩)
        · exact ⟨hs.cons₂ a, by simp [hl]⟩
        · exact ⟨hs.cons a, hl⟩
      · rintro ⟨hs, hl⟩
        cases hs with
        | cons _ h => exact Or.inr ⟨h, hl⟩
        | cons₂ _ h =>
          rename_i s
          exact Or.inl ⟨s, ⟨h, by simpa using hl⟩, rfl⟩

theorem pairwise_lex_combs {α : Type} [LinearOrder α] (k : Nat) (l : List α)
    (hl : l.Pairwise (· < ·)) : (combs k l).Pairwise (List.Lex (· < ·)) := by
  induction l generalizing k with
  | nil => cases k <;> simp [combs]
  | cons a l ih =>
    cases k with
    | zero => simp [combs]
    | succ k =>
      rw [List.pairwise_cons] at hl
      simp only [combs]
      rw [List.pairwise_append]
      refine ⟨?_, ih _ hl.2, ?_⟩
      · rw [List.pairwise_map]
        exact (ih k hl.2).imp (fun h => List.Lex.cons h)
      · intro s hs t ht
        obtain ⟨s', _, rfl⟩ := List.mem_map.1 hs
        obtain ⟨hsub, hlen⟩ := (mem_combs _ _ _).1 ht
        cases t with
        | nil => simp at hlen
        | cons b t =>
          exact List.Lex.rel (hl.1 b (hsub.subset (List.mem_cons_self _ _)))

theorem mem_combs_finRange (m k : Nat) (t : List (Fin m)) :
    t ∈ combs k (List.finRange m) ↔ t.length = k ∧ t.Pairwise (· < ·) := by
  rw [mem_combs]
  constructor
  · rintro ⟨hs, hl⟩
    exact ⟨hl, (List.pairwise_lt_finRange m).sublist hs⟩
  · rintro ⟨hl, hp⟩
    refine ⟨?_, hl⟩
    have hnd : t.Nodup := hp.imp (fun h => ne_of_lt h)
    exact List.sublist_of_subperm_of_sorted
      (hnd.subperm (fun a _ => List.mem_finRange a)) hp (List.pairwise_lt_finRange m)

/-- C6. `generateCombinations(P, k, 0, [], [])` is the image under `P` of a list `T` of index
tuples that has `C(m, k)` entries, consists of exactly the strictly increasing `k`-tuples
of indices of `P` (so every `k`-subset occurs, in the relative order of `P`), and is
strictly increasing in the lexicographic order (so no subset occurs twice). -/
theorem generateCombinations_all_subsets {α : Type} (P : List α) (k : Nat) :
    ∃ T : List (List (Fin P.length)),
      generateCombinations P (k : Int) 0 [] [] = T.map (fun t => t.map P.get) ∧
      T.length = Nat.choose P.length k ∧
      (∀ t : List (Fin P.length), t ∈ T ↔ t.length = k ∧ t.Pairwise (· < ·)) ∧
      T.Pairwise (List.Lex (· < ·)) ∧
      T.Nodup ∧
      ∀ c ∈ generateCombinations P (k : Int) 0 [] [], c.Sublist P ∧ c.length = k := by
  have hlex := pairwise_lex_combs k (List.finRange P.length) (List.pairwise_lt_finRange _)
  have hgen : generateCombinations P (k : Int) 0 [] [] = combs k P := by
    rw [generateCombinations_eq, if_pos (by omega)]; simp
  refine ⟨combs k (List.finRange P.length), ?_, ?_, mem_combs_finRange _ _, hlex, ?_, ?_⟩
  · rw [hgen]
    conv_lhs => rw [← List.finRange_map_get P]
    rw [combs_map]
  · rw [length_combs, List.length_finRange]
  · refine hlex.imp ?_
    intro a b hab heq
    subst heq
    exact (List.Lex.isAsymm.aux _ _ _ hab hab)
  · intro c hc
    rw [hgen] at hc
    exact (mem_combs _ _ _).1 hc

/-! ## The tally loop -/

theorem BigInt.value_eq_iff (a b : BigInt) : a.value = b.value ↔ a = b := by
  cases a; cases b; simp

theorem tallyLoop_append (cs : List (List Point)) (c : List Point) (t : Tally) :
    tallyLoop (cs ++ [c]) t = tallyStep (tallyLoop cs t) (lagrangeAtZero c) := by
  simp [tallyLoop, List.foldl_append]

/-- Invariant of the tally loop, started from the initial state, after the candidates of
`cs` have been counted. -/
theorem tallyLoop_inv (cs : List (List Point)) :
    (∀ b : BigInt, (tallyLoop cs tallyInit).freq b.value = ((cs.map lagrangeAtZero).count b : Int)) ∧
    (∀ b : BigInt, ((cs.map lagrangeAtZero).count b : Int) ≤ (tallyLoop cs tallyInit).maxFreq) ∧
    (cs = [] → (tallyLoop cs tallyInit).maxFreq = 0) ∧
    (cs ≠ [] → ∃ pre post, cs.map lagrangeAtZero = pre ++ (tallyLoop cs tallyInit).bestSecret :: post ∧
      (pre.count (tallyLoop cs tallyInit).bestSecret : Int) + 1 = (tallyLoop cs tallyInit).maxFreq ∧
      ∀ b : BigInt, (pre.count b : Int) < (tallyLoop cs tallyInit).maxFreq) := by
  induction cs using List.reverseRecOn with
  | nil =>
    refine ⟨?_, ?_, ?_, ?_⟩ <;> simp [tallyLoop, tallyInit]
  | append_singleton cs c ih =>
    obtain ⟨hfreq, hmax, hnil, hbest⟩ := ih
    rw [tallyLoop_append]
    generalize tallyLoop cs tallyInit = t at hfreq hmax hnil hbest ⊢
    set s := lagrangeAtZero c with hs
    have hmap : (cs ++ [c]).map lagrangeAtZero = cs.map lagrangeAtZero ++ [s] := by simp [hs]
    rw [hmap]
    have hcount : ∀ b : BigInt, ((cs.map lagrangeAtZero ++ [s]).count b : Int) =
        ((cs.map lagrangeAtZero).count b : Int) + (if b = s then 1 else 0) := by
      intro b
      rw [List.count_append, List.count_singleton]
      by_cases hb : b = s
      · subst hb; simp
      · have : ¬ (s == b) = true := by simpa using fun h => hb h.symm
        simp [hb, this]
    have hupd : ∀ b : BigInt,
        Function.update t.freq s.value (t.freq s.value + 1) b.value =
          ((cs.map lagrangeAtZero).count b : Int) + (if b = s then 1 else 0) := by
      intro b
      by_cases hb : b = s
      · subst hb; simp [hfreq]
      · have : b.value ≠ s.value := fun h => hb ((BigInt.value_eq_iff _ _).1 h)
        simp [Function.update_noteq this, hfreq, hb]
    have hss : Function.update t.freq s.value (t.freq s.value + 1) s.value =
        ((cs.map lagrangeAtZero).count s : Int) + 1 := by
      rw [hupd s]; simp
    unfold tallyStep
    simp only []
    by_cases hgt : Function.update t.freq s.value (t.freq s.value + 1) s.value > t.maxFreq
    · rw [if_pos hgt]
      simp only []
      rw [hss] at hgt ⊢
      refine ⟨fun b => by rw [hupd, hcount], ?_, by simp, fun _ => ⟨cs.map lagrangeAtZero, [], rfl, rfl, ?_⟩⟩
      · intro b
        rw [hcount]
        have := hmax b
        split_ifs with hb
        · subst hb; omega
        · omega
      · intro b
        have := hmax b
        omega
    · rw [if_neg hgt]
      simp only []
      rw [hss] at hgt
      have hne : cs ≠ [] := by
        intro h
        have h0 := hnil h
        have : (0 : Int) ≤ ((cs.map lagrangeAtZero).count s : Int) := Int.natCast_nonneg _
        omega
      obtain ⟨pre, post, hsplit, hpre, hlt⟩ := hbest hne
      refine ⟨fun b => by rw [hupd, hcount], ?_, by simp, fun _ => ⟨pre, post ++ [s], ?_, hpre, hlt⟩⟩
      · intro b
        rw [hcount]
        have := hmax b
        split_ifs with hb
        · subst hb; omega
        · omega
      · rw [hsplit]; simp

theorem combs_ne_nil {α : Type} (k : Nat) (l : List α) (h : k ≤ l.length) : combs k l ≠ [] := by
  intro h0
  have := length_combs k l
  rw [h0] at this
  have := Nat.choose_pos h
  simp at *
  omega

/-- C2. For `1 ≤ k ≤ n` the secret selected by `solve` occurs in the list of candidates of
the enumerated `k`-subsets at a position where its running count reaches its final
count; no candidate has more occurrences in the whole list, and no candidate had
reached that count before that position. -/
theorem solve_secret_plurality (allPoints : List Point) (k : Nat)
    (hk1 : 1 ≤ k) (hk2 : k ≤ allPoints.length) :
    ∃ pre post : List BigInt,
      (generateCombinations allPoints (k : Int) 0 [] []).map lagrangeAtZero
        = pre ++ (solve allPoints k).1 :: post ∧
      (∃ c ∈ generateCombinations allPoints (k : Int) 0 [] [],
        c.length = k ∧ c.Sublist allPoints ∧ (solve allPoints k).1 = lagrangeAtZero c) ∧
      (∀ b : BigInt, ((generateCombinations allPoints (k : Int) 0 [] []).map lagrangeAtZero).count b
        ≤ ((generateCombinations allPoints (k : Int) 0 [] []).map lagrangeAtZero).count
            (solve allPoints k).1) ∧
      pre.count (solve allPoints k).1 + 1
        = ((generateCombinations allPoints (k : Int) 0 [] []).map lagrangeAtZero).count
            (solve allPoints k).1 ∧
      ∀ b : BigInt, pre.count b
        < ((generateCombinations allPoints (k : Int) 0 [] []).map lagrangeAtZero).count
            (solve allPoints k).1 := by
  have hgen : generateCombinations allPoints (k : Int) 0 [] [] = combs k allPoints := by
    rw [generateCombinations_eq, if_pos (by omega)]; simp
  have hne : generateCombinations allPoints (k : Int) 0 [] [] ≠ [] := by
    rw [hgen]; exact combs_ne_nil k allPoints hk2
  obtain ⟨_, hmax, _, hbest⟩ := tallyLoop_inv (generateCombinations allPoints (k : Int) 0 [] [])
  obtain ⟨pre, post, hsplit, hpre, hlt⟩ := hbest hne
  have hsolve : (solve allPoints k).1 =
      (tallyLoop (generateCombinations allPoints (k : Int) 0 [] []) tallyInit).bestSecret := rfl
  rw [hsolve]
  generalize (tallyLoop (generateCombinations allPoints (k : Int) 0 [] []) tallyInit).bestSecret
    = best at *
  generalize (tallyLoop (generateCombinations allPoints (k : Int) 0 [] []) tallyInit).maxFreq
    = M at *
  have hM : (((generateCombinations allPoints (k : Int) 0 [] []).map lagrangeAtZero).count best : Int)
      = M := by
    apply le_antisymm (hmax best)
    rw [hsplit, List.count_append, List.count_cons_self]
    push_cast
    omega
  refine ⟨pre, post, hsplit, ?_, ?_, ?_, ?_⟩
  · have hmem : best ∈ (generateCombinations allPoints (k : Int) 0 [] []).map lagrangeAtZero := by
      rw [hsplit]; simp
    obtain ⟨c, hc, hbc⟩ := List.mem_map.1 hmem
    have hc2 := hc
    rw [hgen, mem_combs] at hc2
    exact ⟨c, hc, hc2.2, hc2.1, hbc.symm⟩
  · intro b
    have := hmax b
    omega
  · omega
  · intro b
    have := hlt b
    omega

/-- Witness of `solve_secret_plurality` on scenario 1 with threshold `2`. -/
theorem solve_secret_plurality_witness :
    (1 ≤ 2 ∧ 2 ≤ scenario1.length) ∧
    ∃ pre post : List BigInt,
      (generateCombinations scenario1 ((2 : Nat) : Int) 0 [] []).map lagrangeAtZero
        = pre ++ (solve scenario1 (2 : Nat)).1 :: post ∧
      (∃ c ∈ generateCombinations scenario1 ((2 : Nat) : Int) 0 [] [],
        c.length = 2 ∧ c.Sublist scenario1 ∧ (solve scenario1 (2 : Nat)).1 = lagrangeAtZero c) ∧
      (∀ b : BigInt, ((generateCombinations scenario1 ((2 : Nat) : Int) 0 [] []).map lagrangeAtZero).count b
        ≤ ((generateCombinations scenario1 ((2 : Nat) : Int) 0 [] []).map lagrangeAtZero).count
            (solve scenario1 (2 : Nat)).1) ∧
      pre.count (solve scenario1 (2 : Nat)).1 + 1
        = ((generateCombinations scenario1 ((2 : Nat) : Int) 0 [] []).map lagrangeAtZero).count
            (solve scenario1 (2 : Nat)).1 ∧
      ∀ b : BigInt, pre.count b
        < ((generateCombinations scenario1 ((2 : Nat) : Int) 0 [] []).map lagrangeAtZero).count
            (solve scenario1 (2 : Nat)).1 :=
  ⟨⟨by decide, by decide⟩, solve_secret_plurality scenario1 2 (by decide) (by decide)⟩

open BigInt

/-! ## Characters and decimal renderings -/

theorem nval_foldl (ds : List Int) (x : Int) :
    ds.foldl (fun acc d => acc * 10 + d) x = x * 10 ^ ds.length + nval ds := by
  induction ds generalizing x with
  | nil => simp [nval]
  | cons d ds ih =>
    simp only [List.foldl_cons, List.length_cons, nval]
    rw [ih, ih (0 * 10 + d)]
    ring

theorem nval_append (xs ys : List Int) :
    nval (xs ++ ys) = nval xs * 10 ^ ys.length + nval ys := by
  simp only [nval, List.foldl_append]
  rw [nval_foldl]
  simp [nval]

open BigInt

/-! ## Addition -/

theorem tdiv_tmod_ten (x : Int) :
    10 * x.tdiv 10 + x.tmod 10 = x ∧
    (0 ≤ x → 0 ≤ x.tdiv 10 ∧ 0 ≤ x.tmod 10 ∧ x.tmod 10 ≤ 9) ∧
    (x ≤ 0 → x.tdiv 10 ≤ 0 ∧ -9 ≤ x.tmod 10 ∧ x.tmod 10 ≤ 0) := by
  have hsum := Int.tdiv_add_tmod x 10
  refine ⟨hsum, ?_, ?_⟩
  · intro hx
    rw [Int.tdiv_eq_ediv hx (by decide), Int.tmod_eq_emod hx (by decide)]
    omega
  · intro hx
    have h1 : x.tdiv 10 = -((-x) / 10) := by
      have := Int.neg_tdiv (-x) 10
      rw [neg_neg] at this
      rw [this, Int.tdiv_eq_ediv (by omega) (by decide)]
    rw [h1] at hsum ⊢
    omega

open BigInt

theorem digitVal_range (c : Char) : -176 ≤ digitVal c ∧ digitVal c ≤ 79 := by
  unfold digitVal charVal
  omega

theorem headDigit_range (r : List Char) : -176 ≤ headDigit r ∧ headDigit r ≤ 79 := by
  cases r with
  | nil => simp [headDigit]
  | cons c r => exact digitVal_range c

/-- Once the fuel covers one iteration per remaining character and the iterations of the
final carry, more fuel does not change the result of the loop of `add`: the loop has
stopped by itself. -/
theorem addLoop_fuel_stable (fuel : Nat) :
    ∀ (ra rb : List Char) (carry : Int) (res : List Char) (extra : Nat),
      -39 ≤ carry → carry ≤ 39 →
      (ra.length + rb.length + 2 ≤ fuel ∨
        (ra = [] ∧ rb = [] ∧ (carry = 0 ∨ (1 ≤ fuel ∧ -9 ≤ carry ∧ carry ≤ 9) ∨ 2 ≤ fuel))) →
      addLoop (fuel + extra) ra rb carry res = addLoop fuel ra rb carry res := by
  induction fuel with
  | zero =>
    intro ra rb carry res extra _ _ hf
    have h : ra = [] ∧ rb = [] ∧ carry = 0 := by
      rcases hf with hf | ⟨h1, h2, h3⟩
      · omega
      · exact ⟨h1, h2, by omega⟩
    obtain ⟨rfl, rfl, rfl⟩ := h
    cases extra with
    | zero => rfl
    | succ e => simp [addLoop]
  | succ fuel ih =>
    intro ra rb carry res extra hc1 hc2 hf
    have hfe : fuel + 1 + extra = (fuel + extra) + 1 := by omega
    rw [hfe, addLoop, addLoop]
    by_cases hcond : ra ≠ [] ∨ rb ≠ [] ∨ carry ≠ 0
    · rw [if_pos hcond, if_pos hcond]
      simp only []
      have hx := headDigit_range ra
      have hy := headDigit_range rb
      obtain ⟨hsum, hpos, hneg⟩ := tdiv_tmod_ten (headDigit ra + headDigit rb + carry)
      generalize hq : (headDigit ra + headDigit rb + carry).tdiv 10 = q at *
      generalize hr : (headDigit ra + headDigit rb + carry).tmod 10 = r at *
      have hqr : -39 ≤ q ∧ q ≤ 39 := by
        rcases le_total 0 (headDigit ra + headDigit rb + carry) with h | h
        · have := hpos h; omega
        · have := hneg h; omega
      apply ih _ _ _ _ _ hqr.1 hqr.2
      rcases hf with hf | ⟨h1, h2, h3⟩
      · cases ra with
        | nil =>
          cases rb with
          | nil =>
            right
            refine ⟨rfl, rfl, ?_⟩
            simp only [headDigit] at hsum
            simp at hf
            right; left
            rcases le_total 0 (0 + 0 + carry) with h | h
            · have := hpos h; omega
            · have := hneg h; omega
          | cons b rb => left; simp at hf ⊢; omega
        | cons a ra => left; simp at hf ⊢; omega
      · subst h1; subst h2
        right
        refine ⟨rfl, rfl, ?_⟩
        simp only [headDigit] at hsum
        rcases le_total 0 (0 + 0 + carry) with h | h
        · have := hpos h; omega
        · have := hneg h; omega
    · rw [if_neg hcond, if_neg hcond]

/-- The fuel that `add` gives to its loop is enough on every pair of strings: the loop
returns the same string with any larger fuel. -/
theorem addLoop_fuel_enough (a b : List Char) (extra : Nat) :
    addLoop (a.length + b.length + 2 + extra) a.reverse b.reverse 0 [] =
      addLoop (a.length + b.length + 2) a.reverse b.reverse 0 [] :=
  addLoop_fuel_stable _ _ _ _ _ _ (by omega) (by omega) (Or.inl (by simp))

open BigInt

/-! ## Multiplication -/

open BigInt

open BigInt

open BigInt

/-! ## Base decoding -/

/-- The decodings of the mixed-base scenario: `("4", 10) ↦ 4`, `("111", 2) ↦ 7`,
`("a", 16) ↦ 10`. -/
theorem decodeValue_examples :
    (decodeValue "4".toList 10).value = "4".toList ∧
    (decodeValue "111".toList 2).value = "7".toList ∧
    (decodeValue "a".toList 16).value = "10".toList := by
  decide

/-- A byte above `0x7f` is not a digit; `tolower` returns its byte value, so the byte `0x80`
counts as the digit `128 - 'a' + 10 = 41` and decodes to `41` in base `10`. -/
theorem decodeValue_high_byte :
    digitOf (Char.ofNat 128) = 41 ∧
    (decodeValue [Char.ofNat 128] 10).value = "41".toList := by
  decide

open BigInt

/-! ## The Lagrange sum on two points -/

/-- C1 (defect of the code). On the points `(1, 4)`, `(2, 7)` the function `lagrangeAtZero`
returns the string `-.5`, whereas the sum `S = 4·(−2) + 7·(−1) = −15` of the specification
renders as `-15`: the string arithmetic treats the `-` of `to_string(-xj)` as a digit. -/
theorem lagrangeAtZero_two_points :
    (lagrangeAtZero [(1, BigInt.ofString "4".toList), (2, BigInt.ofString "7".toList)]).value
        = "-.5".toList ∧
      to_string (lagrangeSum [(1, 4), (2, 7)]) = "-15".toList := by
  decide

/-! ## Order of the points -/

/-- C7 (defect of the code). The points `(1, 4)`, `(2, 7)`, `(3, 10)` and their rotation
`(3, 10)`, `(1, 4)`, `(2, 7)` are permutations of each other, but `lagrangeAtZero` returns
the string `17,25` on the first list and `17-(5` on the second, which `operator==` tells
apart. -/
theorem lagrangeAtZero_order_dependent :
    List.Perm scenario1 [(3, BigInt.ofString "10".toList), (1, BigInt.ofString "4".toList),
      (2, BigInt.ofString "7".toList)] ∧
    (lagrangeAtZero scenario1).value = "17,25".toList ∧
    (lagrangeAtZero [(3, BigInt.ofString "10".toList), (1, BigInt.ofString "4".toList),
      (2, BigInt.ofString "7".toList)]).value = "17-(5".toList ∧
    (lagrangeAtZero scenario1).eq
      (lagrangeAtZero [(3, BigInt.ofString "10".toList), (1, BigInt.ofString "4".toList),
        (2, BigInt.ofString "7".toList)]) = false := by
  decide

/-! ## The scenarios of the specification -/

theorem solve_eq (allPoints : List Point) (k : Int) :
    solve allPoints k =
      ((tallyLoop (if 0 ≤ k then combs k.toNat allPoints else []) tallyInit).bestSecret,
        suspectLoop allPoints k
          (tallyLoop (if 0 ≤ k then combs k.toNat allPoints else []) tallyInit).bestSecret
          allPoints) := by
  rw [solve, generateCombinations_eq]

/-- C8 (counterexample). With the points of scenario 2 and `k = 2`, the share `4` is not among
the shares that `solve` reports as possibly faulty. -/
theorem scenario2_share4_not_flagged : 4 ∉ (solve scenario2 2).2 := by
  rw [solve_eq]
  decide

/-- C8 (amended). With the points of scenario 2 and `k = 2`, `solve` selects the candidate of
the first enumerated subset, the clean shares `(1, 4)`, `(2, 7)`; the trial subset of the
share `4` is that same subset, so the share `4` is not flagged, and the shares reported as
possibly faulty are exactly `1` and `2`. -/
theorem scenario2_solve :
    (solve scenario2 2).1 = lagrangeAtZero (scenario2.take 2) ∧
    trialLoop 4 2 scenario2 [] = scenario2.take 2 ∧
    (solve scenario2 2).2 = [1, 2] := by
  rw [solve_eq]
  decide

/-- C9 (counterexample). With the points of scenario 1 and `k = 2`, the 2-subsets do not all
yield the same candidate and the list of shares reported as possibly faulty is not
empty. -/
theorem scenario1_not_unanimous :
    ¬ ((∀ c ∈ generateCombinations scenario1 2 0 [] [],
          lagrangeAtZero c = lagrangeAtZero (scenario1.take 2)) ∧
        (solve scenario1 2).2 = []) := by
  rw [solve_eq, generateCombinations_eq]
  decide

/-- C9 (amended). With the points of scenario 1 and `k = 2`, the three 2-subsets yield
pairwise distinct candidates, `solve` selects the candidate of the first subset
`(1, 4)`, `(2, 7)`, and the shares reported as possibly faulty are exactly `1` and `2`. -/
theorem scenario1_solve :
    (generateCombinations scenario1 2 0 [] []).length = 3 ∧
    ((generateCombinations scenario1 2 0 [] []).map lagrangeAtZero).Nodup ∧
    (solve scenario1 2).1 = lagrangeAtZero (scenario1.take 2) ∧
    (solve scenario1 2).2 = [1, 2] := by
  rw [solve_eq, generateCombinations_eq]
  decide

/-- C10 (defect of the code). For the single point `(1, 5)` and `k = n = 1`, `solve`
selects the candidate `5` of the only subset, but its suspect loop evaluates the empty
trial list, obtains `0`, and reports the share `1` as possibly faulty.  Likewise for the
two points `(1, 4)`, `(2, 7)` and `k = n = 2`: both shares are reported. -/
theorem solve_single_share_flagged :
    generateCombinations [((1 : Int), BigInt.ofString "5".toList)] 1 0 [] []
      = [[(1, BigInt.ofString "5".toList)]] ∧
    solve [(1, BigInt.ofString "5".toList)] 1 = (⟨"5".toList⟩, [1]) ∧
    trialLoop 1 1 [(1, BigInt.ofString "5".toList)] [] = [] ∧
    (lagrangeAtZero []).value = "0".toList ∧
    solve (scenario1.take 2) 2 = (lagrangeAtZero (scenario1.take 2), [1, 2]) := by
  rw [solve_eq, solve_eq, generateCombinations_eq]
  decide

theorem combs_length_self {α : Type} (l : List α) : combs l.length l = [l] := by
  induction l with
  | nil => rfl
  | cons a l ih =>
    have h0 : combs (l.length + 1) l = [] := by
      apply List.eq_nil_of_length_eq_zero
      rw [length_combs]
      exact Nat.choose_succ_self _
    simp [combs, ih, h0]

/-- With `k = n` a single subset is enumerated and `solve` selects its candidate. -/
theorem solve_secret_of_k_eq_n (allPoints : List Point) :
    generateCombinations allPoints (allPoints.length : Int) 0 [] [] = [allPoints] ∧
    (solve allPoints (allPoints.length : Int)).1 = lagrangeAtZero allPoints := by
  have hgen : generateCombinations allPoints (allPoints.length : Int) 0 [] [] = [allPoints] := by
    rw [generateCombinations_eq, if_pos (by omega)]
    simp [combs_length_self]
  refine ⟨hgen, ?_⟩
  rw [solve, hgen]
  simp [tallyLoop, tallyStep, tallyInit]

open BigInt

/-! ## Signed values -/

/-- C11 (defect of the code). `BigInt(-2) * BigInt(3)` has the value string `'6` (an
apostrophe followed by `6`) and `BigInt(-2) * BigInt(-3)` has the value string `8+6`,
whereas the products `-6` and `6` render as `-6` and `6`: `multiply` reads the sign
character as the digit `-3`. -/
theorem times_negative_operand :
    ((BigInt.ofLongLong (-2)).times (BigInt.ofLongLong 3)).value = [Char.ofNat 39, '6'] ∧
    to_string (-2 * 3) = "-6".toList ∧
    ((BigInt.ofLongLong (-2)).times (BigInt.ofLongLong (-3))).value = "8+6".toList ∧
    to_string (-2 * -3) = "6".toList := by
  decide

/-- C15 (defect of the code). With `a = 50`, `b = 50`, `c = -1` the sum `(a + b) + c` has the
value string `1-1` and the sum `a + (b + c)` has the value string `71`, so `operator==`
tells them apart (and neither is `99`). -/
theorem plus_not_associative :
    (((BigInt.ofLongLong 50).plus (BigInt.ofLongLong 50)).plus (BigInt.ofLongLong (-1))).value
      = "1-1".toList ∧
    ((BigInt.ofLongLong 50).plus ((BigInt.ofLongLong 50).plus (BigInt.ofLongLong (-1)))).value
      = "71".toList ∧
    (((BigInt.ofLongLong 50).plus (BigInt.ofLongLong 50)).plus (BigInt.ofLongLong (-1))).eq
      ((BigInt.ofLongLong 50).plus ((BigInt.ofLongLong 50).plus (BigInt.ofLongLong (-1))))
      = false ∧
    to_string (50 + 50 + -1) = "99".toList := by
  decide

/-! ## Evaluating `solve` from the list of candidates -/

theorem tallyLoop_eq_foldl (cs : List (List Point)) (t : Tally) :
    tallyLoop cs t = (cs.map lagrangeAtZero).foldl tallyStep t := by
  rw [tallyLoop, List.foldl_map]

theorem solve_of_candidates (allPoints : List Point) (k : Int) (cands : List BigInt)
    (best : BigInt)
    (hc : (generateCombinations allPoints k 0 [] []).map lagrangeAtZero = cands)
    (hb : (cands.foldl tallyStep tallyInit).bestSecret = best) :
    solve allPoints k = (best, suspectLoop allPoints k best allPoints) := by
  rw [solve, tallyLoop_eq_foldl, hc, hb]

/-! ## Inputs that the specification rejects -/

/-- C13 (counterexample). `solve` does not fail on a threshold outside `[1, m]`: on the empty
list with `k = 0` and on the three points of scenario 1 with `k = 5` it returns the
secret `0`, and in the second case it reports all three shares. -/
theorem solve_invalid_threshold_returns :
    solve [] 0 = (⟨"0".toList⟩, []) ∧ solve scenario1 5 = (⟨"0".toList⟩, [1, 2, 3]) := by
  rw [solve_eq, solve_eq]
  decide

theorem tiePoints_candidates :
    (generateCombinations tiePoints 1 0 [] []).map lagrangeAtZero
      = [⟨"5".toList⟩, ⟨"7".toList⟩, ⟨"7".toList⟩, ⟨"5".toList⟩] := by
  rw [generateCombinations_eq]
  decide

/-- C14 (counterexample). With the shares `(1, 5)`, `(2, 7)`, `(3, 7)`, `(4, 5)` and `k = 1` the
candidates are `5`, `7`, `7`, `5`: both end with the maximal tally `2`, the candidate `5`
is produced first, and `solve` selects `7`. -/
theorem tiePoints_selects_later_candidate :
    (generateCombinations tiePoints 1 0 [] []).map lagrangeAtZero
      = [⟨"5".toList⟩, ⟨"7".toList⟩, ⟨"7".toList⟩, ⟨"5".toList⟩] ∧
    (solve tiePoints 1).1 = ⟨"7".toList⟩ :=
  ⟨tiePoints_candidates,
    by rw [solve_of_candidates tiePoints 1 _ ⟨"7".toList⟩ tiePoints_candidates (by decide)]⟩

/-- C18 (counterexample). With the shares `(1, 5)`, `(2, 7)`, `(3, 5)`, `(4, 5)` and `k = 1`,
`solve` selects `5` and flags the share `1` only; without the share `1` it selects `5`
again and flags the shares `3` and `4`, which were not flagged before. -/
theorem suspects_not_monotone :
    solve oddSecondPoints 1 = (⟨"5".toList⟩, [1]) ∧
    solve oddSecondPoints.tail 1 = (⟨"5".toList⟩, [3, 4]) := by
  constructor
  · rw [solve_of_candidates oddSecondPoints 1
      [⟨"5".toList⟩, ⟨"7".toList⟩, ⟨"5".toList⟩, ⟨"5".toList⟩] ⟨"5".toList⟩
      (by rw [generateCombinations_eq]; decide) (by decide)]
    decide
  · rw [solve_of_candidates oddSecondPoints.tail 1
      [⟨"7".toList⟩, ⟨"5".toList⟩, ⟨"5".toList⟩] ⟨"5".toList⟩
      (by rw [generateCombinations_eq]; decide) (by decide)]
    decide

open BigInt

theorem combs_eq_nil_of_lt {α : Type} (k : Nat) (l : List α) (h : l.length < k) :
    combs k l = [] := by
  apply List.eq_nil_of_length_eq_zero
  rw [length_combs]
  exact Nat.choose_eq_zero_of_lt h

/-- When the threshold is negative or larger than the number of points still to come, the
trial loop never leaves early: it collects every point whose identifier differs from `x`. -/
theorem trialLoop_no_break (x : Int) (k : Int) :
    ∀ (ps trial : List Point), (k < 0 ∨ ((trial.length + ps.length : Nat) : Int) < k) →
      trialLoop x k ps trial = trial ++ ps.filter (fun p => decide (p.1 ≠ x)) := by
  intro ps
  induction ps with
  | nil => intro trial _; simp [trialLoop]
  | cons p ps ih =>
    intro trial h
    rw [trialLoop]
    by_cases hp : p.1 ≠ x
    · rw [if_pos hp, if_neg (by simp at h ⊢; omega), ih _ (by simp at h ⊢; omega),
        List.filter_cons, if_pos (by simpa using hp)]
      simp
    · rw [if_neg hp, if_neg (by simp at h ⊢; omega), ih _ (by simp at h ⊢; omega),
        List.filter_cons, if_neg (by simpa using hp)]

/-- The suspect loop reports the identifiers of the shares whose trial candidate differs
from the selected secret. -/
theorem suspectLoop_eq (allPoints : List Point) (k : Int) (best : BigInt) :
    ∀ ps : List Point, suspectLoop allPoints k best ps =
      (ps.filter (fun p => !(lagrangeAtZero (trialLoop p.1 k allPoints [])).eq best)).map
        Prod.fst := by
  intro ps
  induction ps with
  | nil => rfl
  | cons p ps ih =>
    rw [suspectLoop, List.filter_cons]
    by_cases h : (!(lagrangeAtZero (trialLoop p.1 k allPoints [])).eq best) = true
    · simp only [h, if_true, List.map_cons, ih]
    · simp only [h, if_false, ih]
      simp

/-- C13 (amended). For a threshold `k < 1` or `k > m`, `solve` does not fail: it reports the
secret `0`.  For `k ≠ 0` no subset is enumerated and a share is reported as possibly faulty
exactly when `lagrangeAtZero` of all shares with another identifier differs from `0`; for
`k = 0` the empty subset is the only one enumerated. -/
theorem solve_threshold_out_of_range (allPoints : List Point) (k : Int)
    (hk : k < 1 ∨ (allPoints.length : Int) < k) :
    (solve allPoints k).1 = ⟨['0']⟩ ∧
    (k ≠ 0 → generateCombinations allPoints k 0 [] [] = [] ∧
      (solve allPoints k).2 = (allPoints.filter (fun p =>
        !(lagrangeAtZero (allPoints.filter (fun q => decide (q.1 ≠ p.1)))).eq ⟨['0']⟩)).map
          Prod.fst) ∧
    (k = 0 → generateCombinations allPoints k 0 [] [] = [[]]) := by
  have hgen0 : k ≠ 0 → generateCombinations allPoints k 0 [] [] = [] := by
    intro h0
    rw [generateCombinations_eq]
    split_ifs with h
    · exact combs_eq_nil_of_lt _ _ (by omega)
    · rfl
  have hgen1 : k = 0 → generateCombinations allPoints k 0 [] [] = [[]] := by
    intro h0
    subst h0
    rw [generateCombinations_eq, if_pos (le_refl _)]
    simp [combs]
  have hbest : (solve allPoints k).1 = ⟨['0']⟩ := by
    rw [solve]
    by_cases h0 : k = 0
    · rw [hgen1 h0]
      simp [tallyLoop, tallyStep, tallyInit]
      rfl
    · rw [hgen0 h0]
      rfl
  refine ⟨hbest, fun h0 => ⟨hgen0 h0, ?_⟩, hgen1⟩
  have h2 : (solve allPoints k).2 = suspectLoop allPoints k (solve allPoints k).1 allPoints := rfl
  rw [h2, hbest, suspectLoop_eq]
  congr 1
  apply List.filter_congr
  intro p _
  rw [trialLoop_no_break p.1 k allPoints [] (by simp; omega)]
  simp

/-- Witness of `solve_threshold_out_of_range`: the three points of scenario 1 with `k = 5`. -/
theorem solve_threshold_out_of_range_witness :
    ((5 : Int) < 1 ∨ (scenario1.length : Int) < 5) ∧ (solve scenario1 5).1 = ⟨['0']⟩ :=
  ⟨by decide, (solve_threshold_out_of_range scenario1 5 (by decide)).1⟩

open BigInt

/-! ## Ties in the tally -/

/-- C14 (amended). If two distinct candidates `a` and `b` end with the same maximal tally, the
secret selected by `solve` has that tally, and at the position of the enumeration where
its running tally reached this value neither `a` nor `b` had reached it before; when `a`
and `b` are the only candidates with the maximal tally, the secret is one of them.  So the
candidate whose tally reaches the maximum first wins, not the one produced first. -/
theorem solve_tie_break (allPoints : List Point) (k : Int) (a b : BigInt)
    (ha : a ∈ (generateCombinations allPoints k 0 [] []).map lagrangeAtZero)
    (_hab : a ≠ b)
    (hmax : ∀ c ∈ (generateCombinations allPoints k 0 [] []).map lagrangeAtZero,
      ((generateCombinations allPoints k 0 [] []).map lagrangeAtZero).count c
        ≤ ((generateCombinations allPoints k 0 [] []).map lagrangeAtZero).count a)
    (heq : ((generateCombinations allPoints k 0 [] []).map lagrangeAtZero).count b
      = ((generateCombinations allPoints k 0 [] []).map lagrangeAtZero).count a) :
    ∃ pre post : List BigInt,
      (generateCombinations allPoints k 0 [] []).map lagrangeAtZero
        = pre ++ (solve allPoints k).1 :: post ∧
      ((generateCombinations allPoints k 0 [] []).map lagrangeAtZero).count (solve allPoints k).1
        = ((generateCombinations allPoints k 0 [] []).map lagrangeAtZero).count a ∧
      pre.count (solve allPoints k).1 + 1
        = ((generateCombinations allPoints k 0 [] []).map lagrangeAtZero).count a ∧
      pre.count a < ((generateCombinations allPoints k 0 [] []).map lagrangeAtZero).count a ∧
      pre.count b < ((generateCombinations allPoints k 0 [] []).map lagrangeAtZero).count b ∧
      ((∀ c ∈ (generateCombinations allPoints k 0 [] []).map lagrangeAtZero,
          ((generateCombinations allPoints k 0 [] []).map lagrangeAtZero).count c
            = ((generateCombinations allPoints k 0 [] []).map lagrangeAtZero).count a →
          c = a ∨ c = b) →
        (solve allPoints k).1 = a ∨ (solve allPoints k).1 = b) := by
  have hne : generateCombinations allPoints k 0 [] [] ≠ [] := by
    intro h
    rw [h] at ha
    simp at ha
  obtain ⟨_, hmax', _, hbest⟩ := tallyLoop_inv (generateCombinations allPoints k 0 [] [])
  obtain ⟨pre, post, hsplit, hpre, hlt⟩ := hbest hne
  have hsolve : (solve allPoints k).1 =
      (tallyLoop (generateCombinations allPoints k 0 [] []) tallyInit).bestSecret := rfl
  rw [hsolve]
  generalize (tallyLoop (generateCombinations allPoints k 0 [] []) tallyInit).bestSecret
    = best at *
  generalize (tallyLoop (generateCombinations allPoints k 0 [] []) tallyInit).maxFreq
    = M at *
  generalize (generateCombinations allPoints k 0 [] []).map lagrangeAtZero = cands at *
  have hmem : best ∈ cands := by rw [hsplit]; simp
  have hM : (cands.count best : Int) = M := by
    apply le_antisymm (hmax' best)
    rw [hsplit, List.count_append, List.count_cons_self]
    push_cast
    omega
  have hba : cands.count best = cands.count a := by
    have h1 := hmax best hmem
    have h2 := hmax' a
    omega
  have h3 := hlt a
  have h4 := hlt b
  refine ⟨pre, post, hsplit, hba, by omega, by omega, by omega, ?_⟩
  intro honly
  exact honly best hmem hba

/-- Witness of `solve_tie_break`: the shares `(1, 5)`, `(2, 7)`, `(3, 7)`, `(4, 5)` with
`k = 1`, where the candidates `5` and `7` tie and `7` is selected. -/
theorem solve_tie_break_witness :
    ((⟨"5".toList⟩ : BigInt) ∈ (generateCombinations tiePoints 1 0 [] []).map lagrangeAtZero ∧
      (⟨"5".toList⟩ : BigInt) ≠ ⟨"7".toList⟩) ∧
    ∃ pre post : List BigInt,
      (generateCombinations tiePoints 1 0 [] []).map lagrangeAtZero
        = pre ++ (solve tiePoints 1).1 :: post ∧
      ((generateCombinations tiePoints 1 0 [] []).map lagrangeAtZero).count (solve tiePoints 1).1
        = ((generateCombinations tiePoints 1 0 [] []).map lagrangeAtZero).count ⟨"5".toList⟩ ∧
      pre.count (solve tiePoints 1).1 + 1
        = ((generateCombinations tiePoints 1 0 [] []).map lagrangeAtZero).count ⟨"5".toList⟩ ∧
      pre.count ⟨"5".toList⟩
        < ((generateCombinations tiePoints 1 0 [] []).map lagrangeAtZero).count ⟨"5".toList⟩ ∧
      pre.count ⟨"7".toList⟩
        < ((generateCombinations tiePoints 1 0 [] []).map lagrangeAtZero).count ⟨"7".toList⟩ ∧
      ((∀ c ∈ (generateCombinations tiePoints 1 0 [] []).map lagrangeAtZero,
          ((generateCombinations tiePoints 1 0 [] []).map lagrangeAtZero).count c
            = ((generateCombinations tiePoints 1 0 [] []).map lagrangeAtZero).count
                ⟨"5".toList⟩ →
          c = ⟨"5".toList⟩ ∨ c = ⟨"7".toList⟩) →
        (solve tiePoints 1).1 = ⟨"5".toList⟩ ∨ (solve tiePoints 1).1 = ⟨"7".toList⟩) :=
  ⟨⟨by rw [tiePoints_candidates]; decide, by decide⟩,
    solve_tie_break tiePoints 1 ⟨"5".toList⟩ ⟨"7".toList⟩
      (by rw [tiePoints_candidates]; decide) (by decide)
      (by rw [tiePoints_candidates]; decide) (by rw [tiePoints_candidates]; decide)⟩

open BigInt

/-! ## The trial subsets of the suspect phase -/

/-- For a threshold `k ≥ 1` the trial loop collects the first `k` points whose identifier
differs from `x` (all of them when there are fewer than `k`). -/
theorem trialLoop_eq_take (x : Int) (k : Nat) :
    ∀ (ps trial : List Point), trial.length < k →
      trialLoop x (k : Int) ps trial
        = trial ++ (ps.filter (fun p => decide (p.1 ≠ x))).take (k - trial.length) := by
  intro ps
  induction ps with
  | nil => intro trial _; simp [trialLoop]
  | cons p ps ih =>
    intro trial h
    obtain ⟨j, hj⟩ : ∃ j, k - trial.length = j + 1 := ⟨k - trial.length - 1, by omega⟩
    rw [trialLoop]
    by_cases hp : p.1 ≠ x
    · have hf : (p :: ps).filter (fun p => decide (p.1 ≠ x))
          = p :: ps.filter (fun p => decide (p.1 ≠ x)) := by
        rw [List.filter_cons, if_pos (by simpa using hp)]
      rw [if_pos hp, hf, hj, List.take_succ_cons]
      by_cases hlen : ((trial ++ [p]).length : Int) = k
      · rw [if_pos hlen]
        have hj0 : j = 0 := by simp at hlen; omega
        subst hj0
        simp
      · rw [if_neg hlen, ih _ (by simp at hlen ⊢; omega)]
        have : k - (trial ++ [p]).length = j := by simp; omega
        rw [this]
        simp
    · have hf : (p :: ps).filter (fun p => decide (p.1 ≠ x))
          = ps.filter (fun p => decide (p.1 ≠ x)) := by
        rw [List.filter_cons, if_neg (by simpa using hp)]
      rw [if_neg hp, if_neg (by omega), ih _ h, hf]

theorem length_filter_ne (x : Int) :
    ∀ P : List Point, (P.map Prod.fst).Nodup →
      P.length ≤ (P.filter (fun p => decide (p.1 ≠ x))).length + 1 := by
  intro P
  induction P with
  | nil => intro _; simp
  | cons p P ih =>
    intro hnd
    rw [List.map_cons, List.nodup_cons] at hnd
    by_cases hp : p.1 ≠ x
    · rw [List.filter_cons, if_pos (by simpa using hp)]
      have := ih hnd.2
      simp only [List.length_cons]
      omega
    · have hpx : p.1 = x := by simpa using hp
      rw [List.filter_cons, if_neg (by simpa using hp)]
      have hall : P.filter (fun q => decide (q.1 ≠ x)) = P := by
        apply List.filter_eq_self.2
        intro q hq
        have : q.1 ≠ x := by
          intro h
          apply hnd.1
          rw [hpx, ← h]
          exact List.mem_map_of_mem _ hq
        simpa using this
      rw [hall]
      simp

/-- With distinct identifiers and `1 ≤ k < n`, every trial subset is one of the enumerated
`k`-subsets. -/
theorem trialLoop_mem_combs (P : List Point) (k : Nat) (x : Int)
    (hx : (P.map Prod.fst).Nodup) (hk1 : 1 ≤ k) (hk2 : k < P.length) :
    trialLoop x (k : Int) P [] ∈ combs k P := by
  rw [trialLoop_eq_take x k P [] (by simpa using hk1), mem_combs]
  have hlen := length_filter_ne x P hx
  simp only [List.nil_append, List.length_nil, Nat.sub_zero, List.length_take]
  refine ⟨(List.take_sublist _ _).trans (List.filter_sublist _), ?_⟩
  omega

theorem BigInt.eq_iff (a b : BigInt) : a.eq b = true ↔ a.value = b.value := by
  simp [BigInt.eq]

/-- C19. For `n` points with distinct identifiers and `1 ≤ k < n`, if every enumerated
`k`-subset yields the value string `v`, then `solve` selects a secret with the value string
`v` and reports no share: every trial subset is itself one of the enumerated subsets. -/
theorem solve_unanimous (P : List Point) (k : Nat) (v : List Char)
    (hx : (P.map Prod.fst).Nodup) (hk1 : 1 ≤ k) (hk2 : k < P.length)
    (hall : ∀ c ∈ generateCombinations P (k : Int) 0 [] [], (lagrangeAtZero c).value = v) :
    (solve P (k : Int)).1.value = v ∧ (solve P (k : Int)).2 = [] ∧
    ∀ x : Int, trialLoop x (k : Int) P [] ∈ generateCombinations P (k : Int) 0 [] [] := by
  have hgen : generateCombinations P (k : Int) 0 [] [] = combs k P := by
    rw [generateCombinations_eq, if_pos (by omega)]; simp
  have hne : generateCombinations P (k : Int) 0 [] [] ≠ [] := by
    rw [hgen]; exact combs_ne_nil k P (by omega)
  obtain ⟨_, _, _, hbest⟩ := tallyLoop_inv (generateCombinations P (k : Int) 0 [] [])
  obtain ⟨pre, post, hsplit, _, _⟩ := hbest hne
  have hsolve : (solve P (k : Int)).1 =
      (tallyLoop (generateCombinations P (k : Int) 0 [] []) tallyInit).bestSecret := rfl
  have hmem : (solve P (k : Int)).1 ∈ (generateCombinations P (k : Int) 0 [] []).map
      lagrangeAtZero := by
    rw [hsolve, hsplit]; simp
  obtain ⟨c, hc, hbc⟩ := List.mem_map.1 hmem
  have hv : (solve P (k : Int)).1.value = v := by rw [← hbc]; exact hall c hc
  have htrial : ∀ x : Int, trialLoop x (k : Int) P [] ∈ generateCombinations P (k : Int) 0 [] [] := by
    intro x
    rw [hgen]
    exact trialLoop_mem_combs P k x hx hk1 hk2
  refine ⟨hv, ?_, htrial⟩
  have h2 : (solve P (k : Int)).2 = suspectLoop P (k : Int) (solve P (k : Int)).1 P := rfl
  rw [h2, suspectLoop_eq]
  rw [List.map_eq_nil_iff, List.filter_eq_nil_iff]
  intro p _
  have := hall _ (htrial p.1)
  simp [BigInt.eq_iff, this, hv]

/-- Witness of `solve_unanimous`: the three shares `(2, 5)`, `(3, 5)`, `(4, 5)` with `k = 1`. -/
theorem solve_unanimous_witness :
    ((oddFirstPoints.tail.map Prod.fst).Nodup ∧ 1 ≤ 1 ∧ 1 < oddFirstPoints.tail.length ∧
      ∀ c ∈ generateCombinations oddFirstPoints.tail ((1 : Nat) : Int) 0 [] [],
        (lagrangeAtZero c).value = "5".toList) ∧
    (solve oddFirstPoints.tail ((1 : Nat) : Int)).1.value = "5".toList ∧
    (solve oddFirstPoints.tail ((1 : Nat) : Int)).2 = [] :=
  ⟨⟨by decide, by decide, by decide, by rw [generateCombinations_eq]; decide⟩,
    (solve_unanimous oddFirstPoints.tail 1 "5".toList (by decide) (by decide) (by decide)
      (by rw [generateCombinations_eq]; decide)).1,
    (solve_unanimous oddFirstPoints.tail 1 "5".toList (by decide) (by decide) (by decide)
      (by rw [generateCombinations_eq]; decide)).2.1⟩

open BigInt

/-- When a list starts with at least `k + 1` points with distinct identifiers, the trial subset
is taken from these points only. -/
theorem trialLoop_initial (x : Int) (k : Nat) (pre rest : List Point)
    (hx : (pre.map Prod.fst).Nodup) (hk1 : 1 ≤ k) (hpre : k + 1 ≤ pre.length) :
    trialLoop x (k : Int) (pre ++ rest) []
      = (pre.filter (fun p => decide (p.1 ≠ x))).take k := by
  rw [trialLoop_eq_take x k _ [] (by simpa using hk1)]
  have hlen := length_filter_ne x pre hx
  simp only [List.nil_append, List.length_nil, Nat.sub_zero, List.filter_append]
  exact List.take_append_of_le_length (by omega)

theorem mem_suspects (allPoints : List Point) (k : Int) (x : Int) :
    x ∈ (solve allPoints k).2 ↔
      ∃ p ∈ allPoints, p.1 = x ∧
        (lagrangeAtZero (trialLoop p.1 k allPoints [])).eq (solve allPoints k).1 = false := by
  have h2 : (solve allPoints k).2 = suspectLoop allPoints k (solve allPoints k).1 allPoints := rfl
  rw [h2, suspectLoop_eq]
  simp only [List.mem_map, List.mem_filter, Bool.not_eq_true']
  constructor
  · rintro ⟨p, ⟨hp, hf⟩, rfl⟩
    exact ⟨p, hp, rfl, hf⟩
  · rintro ⟨p, hp, rfl, hf⟩
    exact ⟨p, ⟨hp, hf⟩, rfl⟩

/-- C18 (amended). Let the share `s` come after at least `k + 1` other shares in the input
order, with distinct identifiers and `k ≥ 1`.  If `solve` flags `s` and selects the same
secret with `s` removed, then every share flagged with `s` removed is flagged with `s`
present. -/
theorem suspects_monotone_late_removal (pre post : List Point) (s : Point) (k : Nat)
    (hx : ((pre ++ s :: post).map Prod.fst).Nodup) (hk1 : 1 ≤ k) (hpre : k + 1 ≤ pre.length)
    (_hs : s.1 ∈ (solve (pre ++ s :: post) (k : Int)).2)
    (hsame : (solve (pre ++ post) (k : Int)).1 = (solve (pre ++ s :: post) (k : Int)).1) :
    ∀ x ∈ (solve (pre ++ post) (k : Int)).2, x ∈ (solve (pre ++ s :: post) (k : Int)).2 := by
  have hxpre : (pre.map Prod.fst).Nodup := by
    rw [List.map_append] at hx
    exact (List.nodup_append.1 hx).1
  intro x hxm
  rw [mem_suspects] at hxm ⊢
  obtain ⟨p, hp, hpx, hf⟩ := hxm
  refine ⟨p, ?_, hpx, ?_⟩
  · rcases List.mem_append.1 hp with h | h
    · exact List.mem_append_left _ h
    · exact List.mem_append_right _ (List.mem_cons_of_mem _ h)
  · rw [trialLoop_initial p.1 k pre _ hxpre hk1 hpre] at hf ⊢
    rw [← hsame]
    exact hf

theorem oddFirstPoints_solve :
    solve (oddFirstPoints.take 2 ++ (3, BigInt.ofString "5".toList) :: oddFirstPoints.drop 3)
      ((1 : Nat) : Int) = (⟨"5".toList⟩, [2, 3, 4]) := by
  rw [solve_of_candidates _ _
    [⟨"7".toList⟩, ⟨"5".toList⟩, ⟨"5".toList⟩, ⟨"5".toList⟩] ⟨"5".toList⟩
    (by rw [generateCombinations_eq]; decide) (by decide)]
  decide

theorem oddFirstPoints_removed_solve :
    solve (oddFirstPoints.take 2 ++ oddFirstPoints.drop 3) ((1 : Nat) : Int)
      = (⟨"5".toList⟩, [2, 4]) := by
  rw [solve_of_candidates _ _
    [⟨"7".toList⟩, ⟨"5".toList⟩, ⟨"5".toList⟩] ⟨"5".toList⟩
    (by rw [generateCombinations_eq]; decide) (by decide)]
  decide

/-- Witness of `suspects_monotone_late_removal`: the shares `(1, 7)`, `(2, 5)`, `(3, 5)`,
`(4, 5)` with `k = 1` and the third share removed. -/
theorem suspects_monotone_late_removal_witness :
    (((oddFirstPoints.take 2 ++ (3, BigInt.ofString "5".toList) :: oddFirstPoints.drop 3).map
        Prod.fst).Nodup ∧ 1 ≤ 1 ∧ 1 + 1 ≤ (oddFirstPoints.take 2).length ∧
      (3 : Int) ∈ (solve (oddFirstPoints.take 2 ++ (3, BigInt.ofString "5".toList) ::
        oddFirstPoints.drop 3) ((1 : Nat) : Int)).2 ∧
      (solve (oddFirstPoints.take 2 ++ oddFirstPoints.drop 3) ((1 : Nat) : Int)).1
        = (solve (oddFirstPoints.take 2 ++ (3, BigInt.ofString "5".toList) ::
            oddFirstPoints.drop 3) ((1 : Nat) : Int)).1) ∧
    ∀ x ∈ (solve (oddFirstPoints.take 2 ++ oddFirstPoints.drop 3) ((1 : Nat) : Int)).2,
      x ∈ (solve (oddFirstPoints.take 2 ++ (3, BigInt.ofString "5".toList) ::
        oddFirstPoints.drop 3) ((1 : Nat) : Int)).2 :=
  ⟨⟨by decide, by decide, by decide, by rw [oddFirstPoints_solve]; decide,
      by rw [oddFirstPoints_solve, oddFirstPoints_removed_solve]⟩,
    suspects_monotone_late_removal (oddFirstPoints.take 2) (oddFirstPoints.drop 3)
      (3, BigInt.ofString "5".toList) 1 (by decide) (by decide) (by decide)
      (by rw [oddFirstPoints_solve]; decide)
      (by rw [oddFirstPoints_solve, oddFirstPoints_removed_solve])⟩

open BigInt

/-! ## The positional valuation of the string arithmetic -/

open BigInt

open BigInt

/-! ## Round trip through the base-`b` rendering -/

open BigInt

/-! ## Identity and annihilator laws -/

open BigInt

/-! ## Overflow of the accumulators of `multiply` -/

open BigInt

open BigInt

end Shamir
